import Mathlib

/-!
Shallow embedding of `src/main.rs` of the `banner` crate: a terminal
heatmap renderer (fractal Perlin noise, min-max normalization, color
gradient lookup, figlet text overlay, ANSI escape output).

Machine floats (`f64`/`f32`) are modelled by exact rationals.  The external
crates are opaque deterministic functions passed as parameters: the Perlin
primitive `noise : ℚ → ℚ → ℚ`, the seeded random stream
`rngOf : seed → draw index → unit draw`, and the figlet font renderer
`figlet : String → List (List Char)`.
-/

/-- Command-line arguments of the program (`struct Args`, src/main.rs
lines 11-44).  The seed expression `args.random.unwrap_or(random())` is
modelled by the resolved seed value `random`; the figlet raster of `text`
is produced by the external font parameter. -/
structure Args where
  rows : ℕ
  scale : ℚ
  octaves : ℕ
  persistence : ℚ
  lacunarity : ℚ
  fade_factor_range : ℚ
  random : ℕ
  text : String

/-- State of the octave loop (src/main.rs lines 58-70) after `k`
iterations, as the tuple `(val, frequency, amplitude, max_value)`.  Each
iteration adds `noise(i/scale * frequency, j/scale * frequency) *
amplitude` to `val`, adds `amplitude` to `max_value`, then multiplies
`amplitude` by `persistence` and `frequency` by `lacunarity`. -/
def octaveStep (noise : ℚ → ℚ → ℚ) (a : Args) (i j : ℕ) : ℕ → ℚ × ℚ × ℚ × ℚ
  | 0 => (0, 1, 1, 0)
  | k + 1 =>
    let s := octaveStep noise a i j k
    (s.1 + noise ((i : ℚ) / a.scale * s.2.1) ((j : ℚ) / a.scale * s.2.1) * s.2.2.1,
     s.2.1 * a.lacunarity,
     s.2.2.1 * a.persistence,
     s.2.2.2 + s.2.2.1)

/-- Raw fractal value `data[i][j] = val / max_value` (src/main.rs line 71).
In ℚ the division by zero that the program performs when `octaves = 0`
(float `0.0/0.0`, i.e. NaN) collapses to `0`; that degenerate case is
analysed separately via the denominator being `0`. -/
def rawValue (noise : ℚ → ℚ → ℚ) (a : Args) (i j : ℕ) : ℚ :=
  let s := octaveStep noise a i j a.octaves
  s.1 / s.2.2.2

/-- The `rows × cols` grid of raw fractal values (src/main.rs lines
55-73), row-major. -/
def rawGrid (noise : ℚ → ℚ → ℚ) (a : Args) (cols : ℕ) : List (List ℚ) :=
  (List.range a.rows).map fun i => (List.range cols).map fun j => rawValue noise a i j

/-- Global minimum as folded by the program (src/main.rs lines 75-79):
`fold(f64::INFINITY, f64::min)` over the flattened grid; `f64::INFINITY`
is the absorbing top element `⊤` of `WithTop ℚ`. -/
def minVal (l : List ℚ) : WithTop ℚ :=
  l.foldl (fun acc v => min acc (v : WithTop ℚ)) ⊤

/-- Global maximum as folded by the program (src/main.rs lines 80-84):
`fold(f64::NEG_INFINITY, f64::max)`, with `f64::NEG_INFINITY` as `⊥` of
`WithBot ℚ`. -/
def maxVal (l : List ℚ) : WithBot ℚ :=
  l.foldl (fun acc v => max acc (v : WithBot ℚ)) ⊥

/-- One cell of the normalization loop (src/main.rs line 88):
`*val = (*val - min_val) / (max_val - min_val)`.  The float division by
zero when `max_val == min_val` produces NaN; that is modelled by `none`. -/
def normCell (m M v : ℚ) : Option ℚ :=
  if M - m = 0 then none else some ((v - m) / (M - m))

/-- The normalization loop over the whole grid (src/main.rs lines 86-90)
with extrema `m`, `M`. -/
def normalizeGrid (data : List (List ℚ)) (m M : ℚ) : List (List (Option ℚ)) :=
  data.map (List.map (normCell m M))

/-- First gradient stop, `LinSrgb::new(0.157, 0.165, 0.212)` (line 93). -/
def stop0 : ℚ × ℚ × ℚ := (157/1000, 165/1000, 212/1000)

/-- Second gradient stop, `LinSrgb::new(0.0, 0.5, 0.7)` (line 94). -/
def stop1 : ℚ × ℚ × ℚ := (0, 1/2, 7/10)

/-- Third gradient stop, `LinSrgb::new(0.545, 0.914, 0.992)` (line 95). -/
def stop2 : ℚ × ℚ × ℚ := (545/1000, 914/1000, 992/1000)

/-- Fourth gradient stop, `LinSrgb::new(0.7, 0.85, 0.9)` (line 96). -/
def stop3 : ℚ × ℚ × ℚ := (7/10, 85/100, 9/10)

/-- Componentwise linear interpolation between two RGB colors. -/
def lerpRGB (c d : ℚ × ℚ × ℚ) (t : ℚ) : ℚ × ℚ × ℚ :=
  (c.1 + (d.1 - c.1) * t, c.2.1 + (d.2.1 - c.2.1) * t, c.2.2 + (d.2.2 - c.2.2) * t)

/-- Modelled from the spec: the external `palette::Gradient::get` over the
four stops of src/main.rs lines 92-97, stops implicitly at `index/3` of
the domain [0,1], piecewise-linear componentwise, with out-of-range `t`
clamped (spec section 4.3). -/
def gradientGet (t : ℚ) : ℚ × ℚ × ℚ :=
  let u := max 0 (min 1 t)
  if u ≤ 1/3 then lerpRGB stop0 stop1 (3 * u)
  else if u ≤ 2/3 then lerpRGB stop1 stop2 (3 * u - 1)
  else lerpRGB stop2 stop3 (3 * u - 2)

/-- Rust saturating float-to-`u8` cast `x as u8` (src/main.rs lines
116-120 and 143-147): truncation toward zero, saturating to [0, 255]. -/
def rustAsU8 (x : ℚ) : ℕ :=
  if x < 0 then 0 else min 255 (Int.toNat ⌊x⌋)

/-- The program's channel conversion `(channel * 255.0) as u8` (src/main.rs
lines 116-120 and 143-147). -/
def channelToU8 (c : ℚ) : ℕ := rustAsU8 (c * 255)

/-- Modelled from the spec: conversion of a linear channel by standard
rounding of `channel * 255` clamped to [0, 255], as the spec's section 4.3
asserts; kept for comparison with `channelToU8`. -/
def specRoundChannel (c : ℚ) : ℕ :=
  Int.toNat (max 0 (min 255 (round (c * 255))))

/-- Perceptual luminance of an 8-bit background color (src/main.rs line
157): `0.299 * r + 0.587 * g + 0.114 * b`. -/
def luminance (r g b : ℕ) : ℚ :=
  299/1000 * (r : ℚ) + 587/1000 * (g : ℚ) + 114/1000 * (b : ℚ)

/-- Darkening of one channel for glyph cells (src/main.rs lines 167-169):
`(0.4 * channel as f32).round() as u8`. -/
def darken (c : ℕ) : ℕ :=
  rustAsU8 ((round ((2/5 : ℚ) * (c : ℚ)) : ℤ) : ℚ)

/-- One renderable terminal cell: background RGB, foreground RGB and the
displayed character. -/
structure Cell where
  bg : ℕ × ℕ × ℕ
  fg : ℕ × ℕ × ℕ
  ch : Char

/-- Per-cell overlay computation (src/main.rs lines 156-174) given the
8-bit background channels computed from the gradient and the figlet glyph
`ch`: luminance is taken of the undarkened background, the text color is
black iff the luminance strictly exceeds 128, glyph (non-space) cells have
every background channel darkened, and the displayed character is always a
space. -/
def overlayCell (r g b : ℕ) (ch : Char) : Cell :=
  let lum := luminance r g b
  let fg : ℕ × ℕ × ℕ := if 128 < lum then (0, 0, 0) else (255, 255, 255)
  let bg : ℕ × ℕ × ℕ := if ch ≠ ' ' then (darken r, darken g, darken b) else (r, g, b)
  ⟨bg, fg, ' '⟩

/-- The escape-coded byte string for one cell (src/main.rs lines 176-187):
background color sequence, foreground color sequence, the character, then
the reset sequence. -/
def escString (c : Cell) : String :=
  "\x1b[48;2;" ++ toString c.bg.1 ++ ";" ++ toString c.bg.2.1 ++ ";" ++ toString c.bg.2.2 ++
  "m\x1b[38;2;" ++ toString c.fg.1 ++ ";" ++ toString c.fg.2.1 ++ ";" ++ toString c.fg.2.2 ++
  "m" ++ String.singleton c.ch ++ "\x1b[0m"

/-- One overlay cell's emitted bytes (src/main.rs lines 141-187): the
background channels are recomputed from the gradient at the stored
normalized value, then composited with the glyph. -/
def cellOut (v : ℚ) (ch : Char) : String :=
  let c := gradientGet v
  escString (overlayCell (channelToU8 c.1) (channelToU8 c.2.1) (channelToU8 c.2.2) ch)

/-- The single-glyph palette `let chars = ["█"]` (src/main.rs line 99). -/
def chars : List Char := ['█']

/-- Character selection by value (src/main.rs lines 112-113):
`(val * (chars.len() - 1)).round() as usize`, always index 0 here. -/
def heatmapChar (v : ℚ) : Char :=
  chars.getD (Int.toNat (round (v * ((chars.length - 1 : ℕ) : ℚ)))) ' '

/-- Modelled from the spec: `rng.gen_range(-r..=r)` of the external seeded
`StdRng`, expressed through a unit-interval draw `u` of the stream. -/
def genRangeSym (r u : ℚ) : ℚ := -r + 2 * r * u

/-- Fade factor of one heatmap cell (src/main.rs lines 106-109): a
per-cell draw in row-major order (draw index `i * cols + j`), clamped to
[0, 1].  The product with the value (line 110) is commented out in the
source, so this factor is computed and then discarded. -/
def fadeFactor (a : Args) (stream : ℕ → ℚ) (cols i j : ℕ) : ℚ :=
  let f := 1 - ((j : ℚ) / (cols : ℚ)) *
    (1 + genRangeSym a.fade_factor_range (stream (i * cols + j)))
  max 0 (min 1 f)

/-- Indices of the figlet raster rows whose cells are written by the
overlay loop (src/main.rs lines 135-140): row `i` of a raster of height
`H` is rendered unless `i >= H - 2` (`continue`) and only while
`i < rows`.  The `usize` subtraction `H - 2` is modelled by truncated ℕ
subtraction, faithful for `H ≥ 2`. -/
def overlayRows (H rows : ℕ) : List ℕ :=
  (List.range H).filter fun i => decide (¬ H - 2 ≤ i ∧ i < rows)

/-- The whole program as a function from its inputs to the emitted byte
stream (src/main.rs lines 46-192).  The heatmap loop (lines 103-126)
stores `(val, char)` per cell and computes the fade factor, whose value is
discarded (line 110); all its `write!` calls are commented out, so the
bytes emitted are exactly those of the overlay loop (lines 135-191): for
each kept raster row, one escape-coded cell per column while `i < rows`,
then a newline.  Normalization here uses total ℚ division (the value of
the NaN cases is analysed via `normCell`). -/
def runProgram (noise : ℚ → ℚ → ℚ) (rngOf : ℕ → ℕ → ℚ)
    (figlet : String → List (List Char)) (a : Args) (cols : ℕ) : String :=
  let stream := rngOf a.random
  let data := rawGrid noise a cols
  let m := (minVal data.flatten).untop' 0
  let M := (maxVal data.flatten).unbot' 0
  let ndata := data.map (List.map fun v => (v - m) / (M - m))
  let heatmap := (List.range a.rows).map fun i => (List.range cols).map fun j =>
    let _fade := fadeFactor a stream cols i j
    let v := (ndata.getD i []).getD j 0
    (v, heatmapChar v)
  let figletLines := figlet a.text
  let H := figletLines.length
  String.join <| (List.range H).map fun i =>
    if H - 2 ≤ i then ""
    else
      (String.join <| (List.range cols).map fun j =>
        if i < a.rows then
          let line := figletLines.getD i []
          let vc := (heatmap.getD i []).getD j (0, ' ')
          let ch := if j < line.length then line.getD j ' ' else ' '
          cellOut vc.1 ch
        else "") ++ "\n"

/-- Concrete noise primitive used for witnesses. -/
def noiseW : ℚ → ℚ → ℚ := fun x y => x + y

/-- Concrete random stream used for witnesses. -/
def rngW : ℕ → ℕ → ℚ := fun _ _ => 1/2

/-- Concrete figlet renderer used for witnesses: a constant raster of
height 3 (one glyph row plus the two dropped trailing rows). -/
def figletW : String → List (List Char) := fun _ => [[' '], [' '], [' ']]

/-- Concrete arguments with `octaves = 0` (the configuration the program
should reject). -/
def argsZeroOct : Args := ⟨1, 1, 0, 1/2, 2, 1/10, 0, "hi"⟩

/-- Concrete well-formed arguments used for witnesses. -/
def argsW : Args := ⟨1, 1, 2, 1/2, 2, 0, 0, ""⟩

/-- Closed form of the octave loop state after `k` iterations: running sum
of weighted noise samples, frequency `lacunarity ^ k`, amplitude
`persistence ^ k`, and amplitude sum. -/
lemma octaveStep_eq (noise : ℚ → ℚ → ℚ) (a : Args) (i j : ℕ) (k : ℕ) :
    octaveStep noise a i j k =
      (∑ t ∈ Finset.range k,
          noise ((i : ℚ) / a.scale * a.lacunarity ^ t)
            ((j : ℚ) / a.scale * a.lacunarity ^ t) * a.persistence ^ t,
       a.lacunarity ^ k, a.persistence ^ k,
       ∑ t ∈ Finset.range k, a.persistence ^ t) := by
  induction k with
  | zero => simp [octaveStep]
  | succ k ih =>
    simp only [octaveStep, ih, Prod.mk.injEq]
    refine ⟨?_, ?_, ?_, ?_⟩
    · rw [Finset.sum_range_succ]
    · rw [pow_succ]
    · rw [pow_succ]
    · rw [Finset.sum_range_succ]

/-- C1: for every grid position `(i, j)` and parameters with
`octaves ≥ 1`, the raw noise value equals the fractal sum
`Σ_k noise(i/scale * lacunarity^k, j/scale * lacunarity^k) *
persistence^k` divided by `Σ_k persistence^k`, with frequencies and
amplitudes starting at 1 and growing by `lacunarity` and `persistence`
per octave. -/
theorem C1_fractal_sum (noise : ℚ → ℚ → ℚ) (a : Args) (i j : ℕ)
    (h : 1 ≤ a.octaves) :
    rawValue noise a i j =
      (∑ t ∈ Finset.range a.octaves,
          noise ((i : ℚ) / a.scale * a.lacunarity ^ t)
            ((j : ℚ) / a.scale * a.lacunarity ^ t) * a.persistence ^ t)
      / (∑ t ∈ Finset.range a.octaves, a.persistence ^ t) := by
  unfold rawValue
  rw [octaveStep_eq]

/-- Witness for C1 at a concrete input: `octaves = 2`, position `(1, 1)`,
additive noise. -/
theorem C1_fractal_sum_witness :
    1 ≤ argsW.octaves ∧
    rawValue noiseW argsW 1 1 =
      (∑ t ∈ Finset.range argsW.octaves,
          noiseW ((1 : ℚ) / argsW.scale * argsW.lacunarity ^ t)
            ((1 : ℚ) / argsW.scale * argsW.lacunarity ^ t) * argsW.persistence ^ t)
      / (∑ t ∈ Finset.range argsW.octaves, argsW.persistence ^ t) :=
  ⟨by decide, C1_fractal_sum noiseW argsW 1 1 (by decide)⟩

/-- The running fold of `min` never rises above its accumulator. -/
lemma foldl_min_le_init : ∀ (l : List ℚ) (acc : WithTop ℚ),
    l.foldl (fun x w => min x (w : WithTop ℚ)) acc ≤ acc
  | [], acc => le_refl acc
  | x :: xs, acc =>
    le_trans (foldl_min_le_init xs (min acc (x : WithTop ℚ))) (min_le_left _ _)

/-- The running fold of `min` is a lower bound of every list member. -/
lemma foldl_min_le_mem (v : ℚ) : ∀ (l : List ℚ) (acc : WithTop ℚ), v ∈ l →
    l.foldl (fun x w => min x (w : WithTop ℚ)) acc ≤ (v : WithTop ℚ)
  | [], _, hv => absurd hv (List.not_mem_nil v)
  | x :: xs, acc, hv => by
    rcases List.mem_cons.mp hv with h | h
    · subst h
      exact le_trans (foldl_min_le_init xs _) (min_le_right _ _)
    · exact foldl_min_le_mem v xs (min acc (x : WithTop ℚ)) h

/-- A finite value reached by the `min` fold is the accumulator or a list
member. -/
lemma foldl_min_attained : ∀ (l : List ℚ) (acc : WithTop ℚ) (m : ℚ),
    l.foldl (fun x w => min x (w : WithTop ℚ)) acc = (m : WithTop ℚ) →
    acc = (m : WithTop ℚ) ∨ m ∈ l
  | [], _, _, h => Or.inl h
  | x :: xs, acc, m, h => by
    rcases foldl_min_attained xs (min acc (x : WithTop ℚ)) m h with h' | h'
    · rcases min_choice acc ((x : WithTop ℚ)) with hc | hc
      · rw [hc] at h'
        exact Or.inl h'
      · rw [hc] at h'
        have hxm : x = m := WithTop.coe_inj.mp h'
        subst hxm
        exact Or.inr (List.mem_cons_self x xs)
    · exact Or.inr (List.mem_cons_of_mem x h')

/-- The running fold of `max` never falls below its accumulator. -/
lemma foldl_max_ge_init : ∀ (l : List ℚ) (acc : WithBot ℚ),
    acc ≤ l.foldl (fun x w => max x (w : WithBot ℚ)) acc
  | [], acc => le_refl acc
  | x :: xs, acc =>
    le_trans (le_max_left _ _) (foldl_max_ge_init xs (max acc (x : WithBot ℚ)))

/-- The running fold of `max` is an upper bound of every list member. -/
lemma foldl_max_ge_mem (v : ℚ) : ∀ (l : List ℚ) (acc : WithBot ℚ), v ∈ l →
    (v : WithBot ℚ) ≤ l.foldl (fun x w => max x (w : WithBot ℚ)) acc
  | [], _, hv => absurd hv (List.not_mem_nil v)
  | x :: xs, acc, hv => by
    rcases List.mem_cons.mp hv with h | h
    · subst h
      exact le_trans (le_max_right _ _) (foldl_max_ge_init xs _)
    · exact foldl_max_ge_mem v xs (max acc (x : WithBot ℚ)) h

/-- A finite value reached by the `max` fold is the accumulator or a list
member. -/
lemma foldl_max_attained : ∀ (l : List ℚ) (acc : WithBot ℚ) (M : ℚ),
    l.foldl (fun x w => max x (w : WithBot ℚ)) acc = (M : WithBot ℚ) →
    acc = (M : WithBot ℚ) ∨ M ∈ l
  | [], _, _, h => Or.inl h
  | x :: xs, acc, M, h => by
    rcases foldl_max_attained xs (max acc (x : WithBot ℚ)) M h with h' | h'
    · rcases max_choice acc ((x : WithBot ℚ)) with hc | hc
      · rw [hc] at h'
        exact Or.inl h'
      · rw [hc] at h'
        have hxm : x = M := WithBot.coe_inj.mp h'
        subst hxm
        exact Or.inr (List.mem_cons_self x xs)
    · exact Or.inr (List.mem_cons_of_mem x h')

/-- The program's folded minimum bounds every grid value from below. -/
lemma minVal_le {l : List ℚ} {m v : ℚ} (h : minVal l = (m : WithTop ℚ))
    (hv : v ∈ l) : m ≤ v := by
  have hle := foldl_min_le_mem v l ⊤ hv
  rw [minVal] at h
  rw [h] at hle
  exact WithTop.coe_le_coe.mp hle

/-- The program's folded minimum is attained by some grid value. -/
lemma minVal_mem {l : List ℚ} {m : ℚ} (h : minVal l = (m : WithTop ℚ)) :
    m ∈ l := by
  rcases foldl_min_attained l ⊤ m h with h' | h'
  · exact absurd h'.symm (WithTop.coe_ne_top)
  · exact h'

/-- The program's folded maximum bounds every grid value from above. -/
lemma maxVal_ge {l : List ℚ} {M v : ℚ} (h : maxVal l = (M : WithBot ℚ))
    (hv : v ∈ l) : v ≤ M := by
  have hle := foldl_max_ge_mem v l ⊥ hv
  rw [maxVal] at h
  rw [h] at hle
  exact WithBot.coe_le_coe.mp hle

/-- The program's folded maximum is attained by some grid value. -/
lemma maxVal_mem {l : List ℚ} {M : ℚ} (h : maxVal l = (M : WithBot ℚ)) :
    M ∈ l := by
  rcases foldl_max_attained l ⊥ M h with h' | h'
  · exact absurd h'.symm (WithBot.coe_ne_bot)
  · exact h'

/-- C2: after normalizing a grid whose folded extrema are the finite
values `m ≠ M`, every cell is a defined value in [0, 1]; the minimum is
attained in the grid and normalizes to exactly 0, the maximum is attained
and normalizes to exactly 1. -/
theorem C2_normalization (data : List (List ℚ)) (m M : ℚ)
    (hm : minVal data.flatten = (m : WithTop ℚ))
    (hM : maxVal data.flatten = (M : WithBot ℚ))
    (hne : m ≠ M) :
    (∀ row ∈ normalizeGrid data m M, ∀ o ∈ row, ∃ x, o = some x ∧ 0 ≤ x ∧ x ≤ 1)
    ∧ (m ∈ data.flatten ∧ normCell m M m = some 0)
    ∧ (M ∈ data.flatten ∧ normCell m M M = some 1) := by
  have hmem : m ∈ data.flatten := minVal_mem hm
  have hMmem : M ∈ data.flatten := maxVal_mem hM
  have hlt : m < M := lt_of_le_of_ne (minVal_le hm hMmem) hne
  have hd : M - m ≠ 0 := sub_ne_zero.mpr (ne_of_gt hlt)
  refine ⟨?_, ⟨hmem, ?_⟩, ⟨hMmem, ?_⟩⟩
  · intro row hrow o ho
    obtain ⟨row₀, hrow₀, rfl⟩ := List.mem_map.mp hrow
    obtain ⟨v, hv, rfl⟩ := List.mem_map.mp ho
    have hvmem : v ∈ data.flatten := List.mem_flatten.mpr ⟨row₀, hrow₀, hv⟩
    have h1 : m ≤ v := minVal_le hm hvmem
    have h2 : v ≤ M := maxVal_ge hM hvmem
    refine ⟨(v - m) / (M - m), ?_, ?_, ?_⟩
    · simp [normCell, hd]
    · exact div_nonneg (sub_nonneg.mpr h1) (le_of_lt (sub_pos.mpr hlt))
    · rw [div_le_one (sub_pos.mpr hlt)]
      exact sub_le_sub_right h2 m
  · simp [normCell, hd]
  · simp only [normCell, hd, if_false, Option.some.injEq]
    exact div_self hd

/-- Witness for C2 at the concrete grid `[[0, 2]]` with extrema 0 and 2. -/
theorem C2_normalization_witness :
    (minVal ([[0, 2]] : List (List ℚ)).flatten = ((0 : ℚ) : WithTop ℚ))
    ∧ (maxVal ([[0, 2]] : List (List ℚ)).flatten = ((2 : ℚ) : WithBot ℚ))
    ∧ ((0 : ℚ) ≠ 2)
    ∧ ((∀ row ∈ normalizeGrid ([[0, 2]] : List (List ℚ)) 0 2,
          ∀ o ∈ row, ∃ x, o = some x ∧ 0 ≤ x ∧ x ≤ 1)
       ∧ ((0 : ℚ) ∈ ([[0, 2]] : List (List ℚ)).flatten ∧ normCell 0 2 0 = some 0)
       ∧ ((2 : ℚ) ∈ ([[0, 2]] : List (List ℚ)).flatten ∧ normCell 0 2 2 = some 1)) :=
  ⟨by decide, by decide, by decide,
   C2_normalization [[0, 2]] 0 2 (by decide) (by decide) (by decide)⟩

/-- C3: the code contains no `octaves = 0` rejection.  At the concrete
configuration `argsZeroOct` (octaves = 0, rows = 1, one column) the octave
loop leaves the fractal denominator `max_value` at 0 — so the program
performs the float division `0.0 / 0.0` (NaN) for every cell — and the
renderer nevertheless emits a nonempty byte stream instead of stopping
with a configuration error. -/
theorem C3_no_rejection :
    argsZeroOct.octaves = 0
    ∧ (octaveStep noiseW argsZeroOct 0 0 argsZeroOct.octaves).2.2.2 = 0
    ∧ runProgram noiseW rngW figletW argsZeroOct 1 ≠ "" := by
  refine ⟨rfl, rfl, ?_⟩
  intro h
  have hlen := congrArg String.length h
  simp only [runProgram, figletW, argsZeroOct, List.length_cons, List.length_nil,
    List.range_succ, List.range_zero, List.map_append, List.map_cons, List.map_nil,
    List.nil_append, String.join, List.foldl_cons, List.foldl_nil,
    String.length_append] at hlen
  simp at hlen
  exact absurd hlen.2 (by decide)

/-- C4: the normalization loop has no constant-field fallback.  For the
constant one-cell grid `[3]` the folded extrema coincide, and the
normalization cell divides by zero — the float NaN, modelled as `none` —
rather than producing a defined value such as 0.5. -/
theorem C4_no_fallback :
    minVal [(3 : ℚ)] = ((3 : ℚ) : WithTop ℚ)
    ∧ maxVal [(3 : ℚ)] = ((3 : ℚ) : WithBot ℚ)
    ∧ normCell 3 3 3 = none := by
  refine ⟨by decide, by decide, by norm_num [normCell]⟩

/-- C5 counterexample: the gradient color at `t = 1/3` is the second
palette stop `(0, 0.5, 0.7)`; the code's `as u8` conversion of its green
channel (0.5, inside [0,1]) yields 127 by truncation, while the claimed
standard rounding of `0.5 * 255 = 127.5` yields 128. -/
theorem C5_counterexample :
    gradientGet (1/3) = stop1
    ∧ (0 : ℚ) ≤ stop1.2.1 ∧ stop1.2.1 ≤ 1
    ∧ channelToU8 stop1.2.1 = 127
    ∧ specRoundChannel stop1.2.1 = 128
    ∧ channelToU8 stop1.2.1 ≠ specRoundChannel stop1.2.1 := by
  have h1 : gradientGet (1/3) = stop1 := by
    norm_num [gradientGet, lerpRGB, stop0, stop1, min_def, max_def, Prod.ext_iff]
  have h2 : channelToU8 stop1.2.1 = 127 := by
    norm_num [stop1, channelToU8, rustAsU8] <;> decide
  have h3 : specRoundChannel stop1.2.1 = 128 := by
    norm_num [stop1, specRoundChannel, round_eq] <;> decide
  exact ⟨h1, by norm_num [stop1], by norm_num [stop1], h2, h3, by rw [h2, h3]; decide⟩

/-- C5 (amended): each linear RGB channel in [0, 1] is converted to its
8-bit value by saturating truncation toward zero of `channel * 255`, i.e.
the floor `⌊channel * 255⌋`, which lies in [0, 255] — not by standard
rounding. -/
theorem C5_truncation (c : ℚ) (h0 : 0 ≤ c) (h1 : c ≤ 1) :
    channelToU8 c = Int.toNat ⌊c * 255⌋ ∧ channelToU8 c ≤ 255 := by
  have hnn : ¬ c * 255 < 0 := not_lt.mpr (mul_nonneg h0 (by norm_num))
  have hle : ⌊c * 255⌋ ≤ 255 := by
    have hb : c * 255 ≤ (255 : ℚ) := by nlinarith
    have := Int.floor_le_floor hb
    simpa using this
  have htn : Int.toNat ⌊c * 255⌋ ≤ 255 := Int.toNat_le.mpr hle
  constructor
  · simp [channelToU8, rustAsU8, hnn, min_eq_right htn]
  · simp only [channelToU8, rustAsU8, hnn, if_false]
    exact min_le_left _ _

/-- Witness for the amended C5 at the concrete channel value 0.5. -/
theorem C5_truncation_witness :
    (0 : ℚ) ≤ 1/2 ∧ (1/2 : ℚ) ≤ 1
    ∧ (channelToU8 (1/2) = Int.toNat ⌊(1/2 : ℚ) * 255⌋ ∧ channelToU8 (1/2) ≤ 255) :=
  ⟨by norm_num, by norm_num, C5_truncation (1/2) (by norm_num) (by norm_num)⟩

/-- C6: for every overlay cell the foreground text color is black
`(0,0,0)` exactly when the luminance `0.299 r + 0.587 g + 0.114 b` of the
background strictly exceeds 128, and white `(255,255,255)` otherwise,
including at luminance exactly 128. -/
theorem C6_luminance_threshold (r g b : ℕ) (ch : Char) :
    ((overlayCell r g b ch).fg = (0, 0, 0) ↔ 128 < luminance r g b)
    ∧ ((overlayCell r g b ch).fg = (255, 255, 255) ↔ ¬ 128 < luminance r g b) := by
  by_cases h : 128 < luminance r g b
  · simp [overlayCell, h, Prod.ext_iff]
  · simp [overlayCell, h, Prod.ext_iff]

/-- C7: for every overlay cell with a non-space glyph each background
channel is darkened by the factor 0.4 (the code's
`(0.4 * channel).round() as u8`) before emission, space-glyph cells keep
their background, and the displayed character is a space in every case, so
the glyph's only visible effect is the darkening. -/
theorem C7_darken_and_space (r g b : ℕ) (ch : Char) :
    (ch ≠ ' ' → (overlayCell r g b ch).bg = (darken r, darken g, darken b))
    ∧ (ch = ' ' → (overlayCell r g b ch).bg = (r, g, b))
    ∧ (overlayCell r g b ch).ch = ' ' := by
  by_cases h : ch = ' '
  · simp [overlayCell, h]
  · simp [overlayCell, h]

/-- Witness for C7 at a concrete glyph cell: the glyph `'x'` is not a
space, the background `(100, 100, 100)` is darkened to `(40, 40, 40)`, and
the displayed character is a space. -/
theorem C7_darken_and_space_witness :
    (overlayCell 100 100 100 'x').bg = (darken 100, darken 100, darken 100)
    ∧ (overlayCell 100 100 100 'x').ch = ' ' :=
  ⟨(C7_darken_and_space 100 100 100 'x').1 (by decide),
   (C7_darken_and_space 100 100 100 'x').2.2⟩

/-- Filtering `range n` by `· < k` yields `range k` whenever `k ≤ n`. -/
lemma filter_range_lt (n : ℕ) : ∀ k, k ≤ n →
    (List.range n).filter (fun i => decide (i < k)) = List.range k := by
  induction n with
  | zero =>
    intro k hk
    have h0 : k = 0 := Nat.le_zero.mp hk
    subst h0
    rfl
  | succ n ih =>
    intro k hk
    rw [List.range_succ, List.filter_append]
    by_cases hkn : k ≤ n
    · rw [ih k hkn]
      have hnk : ¬ n < k := not_lt.mpr hkn
      simp [hnk]
    · have hk1 : k = n + 1 := by omega
      subst hk1
      have ha : (List.range n).filter (fun i => decide (i < n + 1)) = List.range n :=
        List.filter_eq_self.mpr (by
          intro a ha
          simpa using Nat.lt_succ_of_lt (List.mem_range.mp ha))
      have hb : [n].filter (fun i => decide (i < n + 1)) = [n] := by simp
      rw [ha, hb, ← List.range_succ]

/-- The overlay loop writes exactly the raster rows below
`min (H - 2) rows`. -/
lemma overlayRows_eq (H rows : ℕ) :
    overlayRows H rows = List.range (min (H - 2) rows) := by
  unfold overlayRows
  have hcong : ∀ i ∈ List.range H,
      (decide (¬ H - 2 ≤ i ∧ i < rows)) = (decide (i < min (H - 2) rows)) := by
    intro i _
    simp only [decide_eq_decide]
    omega
  rw [List.filter_congr hcong, filter_range_lt H (min (H - 2) rows) (by omega)]

/-- C8: for a glyph raster of height `H ≥ 2`, the overlay writes cells to
at most `min (H - 2) rows` output rows — the last two raster lines are
dropped, and raster rows at or beyond the configured row count receive no
cells. -/
theorem C8_overlay_row_bound (H rows : ℕ) (hH : 2 ≤ H) :
    (overlayRows H rows).length ≤ min (H - 2) rows
    ∧ (∀ i ∈ overlayRows H rows, i < H - 2 ∧ i < rows)
    ∧ (∀ i, rows ≤ i → i ∉ overlayRows H rows) := by
  rw [overlayRows_eq]
  refine ⟨by simp, ?_, ?_⟩
  · intro i hi
    have := List.mem_range.mp hi
    omega
  · intro i hi hmem
    have := List.mem_range.mp hmem
    omega

/-- Witness for C8 at a concrete raster of height 6 over 3 configured
rows: at most `min 4 3 = 3` rows are written. -/
theorem C8_overlay_row_bound_witness :
    2 ≤ 6
    ∧ ((overlayRows 6 3).length ≤ min (6 - 2) 3
       ∧ (∀ i ∈ overlayRows 6 3, i < 6 - 2 ∧ i < 3)
       ∧ (∀ i, 3 ≤ i → i ∉ overlayRows 6 3)) :=
  ⟨by decide, C8_overlay_row_bound 6 3 (by decide)⟩

/-- C9: determinism — two invocations with identical parameters
(including the seed) and the same injected column count, against the same
deterministic external primitives (noise, seeded random stream, font
renderer), emit identical byte streams. -/
theorem C9_determinism (noise : ℚ → ℚ → ℚ) (rngOf : ℕ → ℕ → ℚ)
    (figlet : String → List (List Char)) (a₁ a₂ : Args) (c₁ c₂ : ℕ)
    (ha : a₁ = a₂) (hc : c₁ = c₂) :
    runProgram noise rngOf figlet a₁ c₁ = runProgram noise rngOf figlet a₂ c₂ := by
  subst ha
  subst hc
  rfl

/-- Witness for C9 at concrete primitives and arguments. -/
theorem C9_determinism_witness :
    argsW = argsW ∧ (1 : ℕ) = 1
    ∧ runProgram noiseW rngW figletW argsW 1 = runProgram noiseW rngW figletW argsW 1 :=
  ⟨rfl, rfl, C9_determinism noiseW rngW figletW argsW argsW 1 1 rfl rfl⟩

/-- The octave loop reads only `scale`, `persistence` and `lacunarity`
from the arguments. -/
lemma octaveStep_params (noise : ℚ → ℚ → ℚ) (a b : Args)
    (hs : a.scale = b.scale) (hp : a.persistence = b.persistence)
    (hl : a.lacunarity = b.lacunarity) (i j : ℕ) : ∀ k,
    octaveStep noise a i j k = octaveStep noise b i j k := by
  intro k
  induction k with
  | zero => rfl
  | succ k ih => simp only [octaveStep, ih, hs, hp, hl]

/-- The raw fractal value additionally reads only `octaves`. -/
lemma rawValue_params (noise : ℚ → ℚ → ℚ) (a b : Args)
    (hs : a.scale = b.scale) (ho : a.octaves = b.octaves)
    (hp : a.persistence = b.persistence) (hl : a.lacunarity = b.lacunarity)
    (i j : ℕ) : rawValue noise a i j = rawValue noise b i j := by
  unfold rawValue
  simp only [octaveStep_params noise a b hs hp hl, ho]

/-- The raw grid additionally reads only `rows`: in particular it is
independent of the seed, the fade factor range and the overlay text. -/
lemma rawGrid_params (noise : ℚ → ℚ → ℚ) (a b : Args)
    (hr : a.rows = b.rows) (hs : a.scale = b.scale) (ho : a.octaves = b.octaves)
    (hp : a.persistence = b.persistence) (hl : a.lacunarity = b.lacunarity)
    (cols : ℕ) : rawGrid noise a cols = rawGrid noise b cols := by
  unfold rawGrid
  rw [hr]
  simp only [rawValue_params noise a b hs ho hp hl]

/-- C10: the random draws are inert — two invocations that differ only in
the seed and/or the fade factor range (all other parameters and the
injected column count equal) emit identical byte streams, because the
per-cell fade factor is computed from the seeded stream and then
discarded (its product with the value, src/main.rs line 110, is commented
out), so no random draw affects any color lookup or emitted cell. -/
theorem C10_rng_inert (noise : ℚ → ℚ → ℚ) (rngOf : ℕ → ℕ → ℚ)
    (figlet : String → List (List Char)) (rows octaves : ℕ)
    (scale persistence lacunarity : ℚ) (r₁ r₂ : ℚ) (s₁ s₂ : ℕ)
    (text : String) (cols : ℕ) :
    runProgram noise rngOf figlet
      ⟨rows, scale, octaves, persistence, lacunarity, r₁, s₁, text⟩ cols
    = runProgram noise rngOf figlet
      ⟨rows, scale, octaves, persistence, lacunarity, r₂, s₂, text⟩ cols := by
  have hg : rawGrid noise ⟨rows, scale, octaves, persistence, lacunarity, r₁, s₁, text⟩ cols
      = rawGrid noise ⟨rows, scale, octaves, persistence, lacunarity, r₂, s₂, text⟩ cols :=
    rawGrid_params noise ⟨rows, scale, octaves, persistence, lacunarity, r₁, s₁, text⟩
      ⟨rows, scale, octaves, persistence, lacunarity, r₂, s₂, text⟩ rfl rfl rfl rfl rfl cols
  simp only [runProgram, hg]
